import Mathlib

/-!
# radr: filename derivation, numbering, TOC projection and guards

A shallow embedding of `main.go`.  Go strings are modelled by Lean `String`s
(sequences of Unicode code points); a Go `int` is a Lean `Int` together with an
explicit 64-bit two's-complement wrap where the program does arithmetic.
-/

namespace Radr

/-! ## Data model -/

deriving instance DecidableEq for Except

/-- The `ADR` struct of `main.go`. -/
structure ADR where
  Number : Int
  Name : String
  Date : String
  Status : String
  deriving DecidableEq, Repr

/-- The `TOCEntry` struct of `main.go`. -/
structure TOCEntry where
  Number : Int
  Name : String
  Link : String
  deriving DecidableEq, Repr

/-! ## Library functions used by the program -/

/-- The class `\w` of Go regular expressions (RE2): `[0-9A-Za-z_]`, ASCII only. -/
def isWordChar (c : Char) : Bool :=
  c.isAlphanum || c == '_'

/-- The call `re.ReplaceAllString(s, " ")` for `re = [^\w]`: every code point that
is not a word character (a line break included) is replaced by one space.  A
byte that is not valid UTF-8 is read by the matcher as U+FFFD and so replaced
by a space as well; it behaves as any other non-word code point. -/
def replaceAllNonWord (s : List Char) : List Char :=
  s.map fun c => if isWordChar c then c else ' '

/-- The function `strings.TrimLeft(s, cutset)`. -/
def trimLeft (cutset : List Char) (s : List Char) : List Char :=
  s.dropWhile fun c => cutset.contains c

/-- The function `strings.TrimRight(s, cutset)`. -/
def trimRight (cutset : List Char) (s : List Char) : List Char :=
  (s.reverse.dropWhile fun c => cutset.contains c).reverse

/-- The function `strings.Trim(s, cutset)`: leading and trailing code points that
belong to `cutset` are removed. -/
def stringsTrim (cutset : List Char) (s : List Char) : List Char :=
  trimRight cutset (trimLeft cutset s)

/-- The function `strings.Split(s, sep)` for a separator of one character: the
pieces between consecutive occurrences of `sep`, empty pieces included; the
empty text gives one empty piece. -/
def stringsSplit (sep : Char) : List Char → List (List Char)
  | [] => [[]]
  | c :: cs =>
    if c = sep then [] :: stringsSplit sep cs
    else
      match stringsSplit sep cs with
      | [] => [[c]]
      | p :: ps => (c :: p) :: ps

/-- The function `strings.Join(parts, sep)`. -/
def stringsJoin (sep : List Char) (parts : List (List Char)) : List Char :=
  sep.intercalate parts

/-- The function `strings.ToLower` on the ASCII range (`A`–`Z` to `a`–`z`, every
other ASCII character unchanged).  Its one call site passes ASCII text only
(`toLower_argument_ascii` below). -/
def stringsToLower (s : List Char) : List Char :=
  s.map Char.toLower

/-- The function `strings.HasSuffix`. -/
def hasSuffix (s suffix : String) : Bool :=
  suffix.data.isSuffixOf s.data

/-- The decimal digit character of a number below ten. -/
def digitChar (d : Nat) : Char :=
  Char.ofNat (48 + d)

/-- Decimal digits of `n`, most significant first, with `fuel` bounding the
number of digits produced. -/
def decimalFuel : Nat → Nat → List Char
  | 0, _ => []
  | fuel + 1, n =>
    if n < 10 then [digitChar n] else decimalFuel fuel (n / 10) ++ [digitChar (n % 10)]

/-- The decimal representation of a natural number, as `fmt` prints it: no
leading zero, and `"0"` for zero. -/
def decimal (n : Nat) : List Char :=
  decimalFuel (n + 1) n

/-- Left padding with zeros up to `width` characters (never truncating). -/
def zeroPad (width : Nat) (ds : List Char) : List Char :=
  List.replicate (width - ds.length) '0' ++ ds

/-- The call `fmt.Sprintf("%04d", n)`: the decimal digits zero-padded to a total
width of four; for a negative number the sign comes first and counts towards
the width. -/
def sprintf04d (n : Int) : List Char :=
  if n < 0 then '-' :: zeroPad 3 (decimal n.natAbs) else zeroPad 4 (decimal n.natAbs)

/-- The value of a text of decimal digits. -/
def digitsValue (s : List Char) : Nat :=
  s.foldl (fun acc c => acc * 10 + (c.toNat - 48)) 0

/-- The function `strconv.ParseUint(s, 10, 64)`: one or more decimal digits whose
value fits 64 bits; otherwise an error. -/
def parseUint (s : List Char) : Option Nat :=
  if s = [] then none
  else if s.all Char.isDigit then
    (if digitsValue s < 2 ^ 64 then some (digitsValue s) else none)
  else none

/-- The function `strconv.Atoi` for a 64-bit `int`: an optional sign, then decimal
digits; a syntax error or a value outside the `int` range is an error. -/
def atoi (s : List Char) : Option Int :=
  match s with
  | [] => none
  | c :: rest =>
    let neg := c == '-'
    let body := if c = '+' ∨ c = '-' then rest else s
    match parseUint body with
    | none => none
    | some un =>
      if neg then (if un > 2 ^ 63 then none else some (-(un : Int)))
      else (if un ≥ 2 ^ 63 then none else some (un : Int))

/-- The first element of `strings.SplitN(s, "-", 2)`: the text before the first
hyphen, or the whole text when there is none. -/
def splitN2Head (s : List Char) : List Char :=
  s.takeWhile fun c => c != '-'

/-- The largest value of a 64-bit `int`. -/
def maxInt : Int := 2 ^ 63 - 1

/-- Go's `int` addition result: the mathematical result wrapped to 64-bit two's
complement. -/
def wrapInt (x : Int) : Int :=
  (x + 2 ^ 63) % 2 ^ 64 - 2 ^ 63

/-! ## Functions of `main.go` -/

/-- The function `getADRFileName`. -/
def getADRFileName (adr : ADR) : String :=
  let adrName := replaceAllNonWord adr.Name.data
  String.mk (sprintf04d adr.Number) ++ "-" ++
    String.mk (stringsToLower (stringsJoin ['-']
      (stringsSplit ' ' (stringsTrim ['\n', ' ', '\t'] adrName))))

/-- The function `getNumberFromADR`. -/
def getNumberFromADR (fileName : String) : Int :=
  match atoi (splitN2Head fileName.data) with
  | none => 0
  | some adrNumber => adrNumber

/-- The function `getNextNumber`, on the listing `ioutil.ReadDir` returned (a
failing `ReadDir` ends the process before the loop). -/
def getNextNumber (files : List String) : Int :=
  let nextNumber := files.foldl (fun nextNumber file =>
    if hasSuffix file ".md" then
      let adrNumber := getNumberFromADR file
      if adrNumber > nextNumber then adrNumber else nextNumber
    else nextNumber) 0
  wrapInt (nextNumber + 1)

/-- The closure `validate` of the `new` action: `nil` (here `Except.ok`) when the
title is accepted, an error otherwise.  Go's `len` of a string is the number of
bytes of its UTF-8 encoding. -/
def validate (input : String) : Except String Unit :=
  if input.utf8ByteSize ≥ 64 then
    Except.error "Title must be shorter than 64 characters"
  else if input.utf8ByteSize ≤ 3 then
    Except.error "Title must be longer than 3 characters"
  else
    Except.ok ()

/-- What `os.Stat` reports for a path. -/
inductive StatResult where
  | found
  | notExist
  | otherError
  deriving DecidableEq, Repr

/-- The function `os.IsNotExist` applied to the error of `os.Stat`. -/
def isNotExist : StatResult → Bool
  | StatResult.notExist => true
  | _ => false

/-- How the opening check of a command ends. -/
inductive Gate where
  | exit (status : Nat)
  | proceed
  deriving DecidableEq, Repr

/-- The opening check of the `new` action (`main.go` lines 154–157); `configFlag`
is the value of `--config`, which the check has at hand as `c.String("config")`
and does not consult. -/
def newActionGate (stat : String → StatResult) (_configFlag : String) : Gate :=
  if isNotExist (stat ".adr.yaml") then Gate.exit 1 else Gate.proceed

/-- The opening check of the `init` action (`main.go` lines 99–100 and 139–141):
it proceeds when nothing exists at the path of `--config`, and is fatal
otherwise. -/
def initActionGate (stat : String → StatResult) (configFlag : String) : Gate :=
  if isNotExist (stat configFlag) then Gate.proceed else Gate.exit 1

/-- The function `readTemplate`; `readFile` is `ioutil.ReadFile` on the current
file system (`none` when it returns an error). -/
def readTemplate (readFile : String → Option String)
    (templateLocation defaultTemplate : String) : String :=
  if templateLocation = "" then defaultTemplate
  else
    match readFile templateLocation with
    | none => defaultTemplate
    | some data => data

/-- The loop of the `toc` action that builds the slice bound to the template
(`main.go` lines 230–250).  `readFile` is `ioutil.ReadFile` on the entries of the
record directory and `unmarshal` is `yaml.Unmarshal` into an `ADR`; an error of
either is fatal (`log.Fatal`). -/
def tocEntries (readFile : String → Except String String)
    (unmarshal : String → Except String ADR) (files : List String) :
    Except String (List TOCEntry) :=
  files.foldlM (fun tocEntry file =>
    if hasSuffix file ".yaml" then
      match readFile file with
      | Except.error e => Except.error e
      | Except.ok adrYaml =>
        match unmarshal adrYaml with
        | Except.error e => Except.error e
        | Except.ok adr =>
          Except.ok (tocEntry ++ [{ Number := adr.Number, Name := adr.Name,
                                    Link := getADRFileName adr ++ ".md" }])
    else Except.ok tocEntry) []

/-! ## Specification-side definitions -/

/-- Maximal runs of word characters of a text, in order; `cur` is the run being
read, most recent character first. -/
def wordRunsAux (cur : List Char) : List Char → List (List Char)
  | [] => if cur = [] then [] else [cur.reverse]
  | c :: cs =>
    if isWordChar c then wordRunsAux (c :: cur) cs
    else if cur = [] then wordRunsAux [] cs
    else cur.reverse :: wordRunsAux [] cs

/-- The slug as the specification words it: the maximal runs of word characters,
each lower-cased, joined with exactly one hyphen. -/
def specSlug (name : String) : List Char :=
  ['-'].intercalate ((wordRunsAux [] name.data).map fun run => run.map Char.toLower)

/-- A text without its leading and trailing characters that are not word
characters. -/
def trimNonWord (s : List Char) : List Char :=
  ((s.dropWhile fun c => !isWordChar c).reverse.dropWhile fun c => !isWordChar c).reverse

/-- The slug character of one character of the name: a word character is
lower-cased, any other character becomes one hyphen. -/
def slugChar (c : Char) : Char :=
  if isWordChar c then c.toLower else '-'

/-- The characters a derived file name is made of: ASCII lower-case letters,
decimal digits, the underscore and the hyphen. -/
def isFileNameChar (c : Char) : Bool :=
  c.isLower || c.isDigit || c == '_' || c == '-'

/-- The largest number among the given ones, and zero when there is none or all are
negative. -/
def maxNumber (ns : List Int) : Int :=
  ns.foldr max 0

/-- A decimal integer in text form: an optional sign followed by one or more
decimal digits. -/
def isDecimalInteger (s : List Char) : Bool :=
  match s with
  | [] => false
  | c :: rest =>
    let body := if c = '+' ∨ c = '-' then rest else s
    !body.isEmpty && body.all Char.isDigit

/-- No two characters next to each other are both separators (characters that are
not word characters). -/
def noAdjacentSeparators : List Char → Bool
  | a :: b :: rest => (isWordChar a || isWordChar b) && noAdjacentSeparators (b :: rest)
  | _ => true

/-- A sample record directory for the `toc` action: the content of each file. -/
def sampleReadFile (file : String) : Except String String :=
  if file = "0002-use-postgres.yaml" then Except.ok "number: 2"
  else if file = "0001-renamed-by-hand.yaml" then Except.ok "number: 1"
  else Except.error "no such file"

/-- The records the sample sidecar contents decode to. -/
def sampleUnmarshal (adrYaml : String) : Except String ADR :=
  if adrYaml = "number: 2" then Except.ok ⟨2, "Use Postgres", "2024/01/02", "Accepted"⟩
  else if adrYaml = "number: 1" then
    Except.ok ⟨1, "Record architecture decisions", "2024/01/01", "Accepted"⟩
  else Except.error "cannot decode"

/-- The record of each sidecar of the sample directory. -/
def sampleRecord (file : String) : ADR :=
  if file = "0002-use-postgres.yaml" then ⟨2, "Use Postgres", "2024/01/02", "Accepted"⟩
  else ⟨1, "Record architecture decisions", "2024/01/01", "Accepted"⟩

/-- A sample file system for `readTemplate`: one readable template file. -/
def sampleTemplates (location : String) : Option String :=
  if location = "docs/template.md" then some "# custom template" else none

/-- The TOC entry the specification assigns to a decoded record. -/
def tocEntryOf (adr : ADR) : TOCEntry :=
  { Number := adr.Number, Name := adr.Name, Link := getADRFileName adr ++ ".md" }

end Radr

namespace Radr

/-! ## Characters -/

theorem isWordChar_toNat_lt {c : Char} (h : isWordChar c = true) : c.toNat < 128 := by
  simp only [isWordChar, Char.isAlphanum, Char.isAlpha, Char.isUpper, Char.isLower,
    Char.isDigit, Bool.or_eq_true, Bool.and_eq_true, decide_eq_true_eq, beq_iff_eq] at h
  rcases h with ((⟨_, h⟩ | ⟨_, h⟩) | ⟨_, h⟩) | h
  · have : c.val.toNat ≤ 90 := h
    exact Nat.lt_of_le_of_lt this (by decide)
  · have : c.val.toNat ≤ 122 := h
    exact Nat.lt_of_le_of_lt this (by decide)
  · have : c.val.toNat ≤ 57 := h
    exact Nat.lt_of_le_of_lt this (by decide)
  · subst h; decide

theorem ascii_forall (P : Char → Prop) (h : ∀ n, n < 128 → P (Char.ofNat n)) {c : Char}
    (hc : c.toNat < 128) : P c := by
  have := h c.toNat hc
  rwa [Char.ofNat_toNat] at this

theorem slugChar_isFileNameChar (c : Char) : isFileNameChar (slugChar c) = true := by
  by_cases h : isWordChar c = true
  · have key : ∀ n, n < 128 → isWordChar (Char.ofNat n) = true →
        isFileNameChar (slugChar (Char.ofNat n)) = true := by decide
    exact ascii_forall (fun c => isWordChar c = true → isFileNameChar (slugChar c) = true) key
      (isWordChar_toNat_lt h) h
  · rw [slugChar, if_neg h]; decide

end Radr

namespace Radr

/-! ## The slug in closed form -/

theorem stringsSplit_ne_nil (sep : Char) (s : List Char) : stringsSplit sep s ≠ [] := by
  cases s with
  | nil => simp [stringsSplit]
  | cons c cs =>
    rw [stringsSplit]
    split
    · simp
    · split <;> simp

theorem intercalate_cons_cons (sep p q : List Char) (ps : List (List Char)) :
    sep.intercalate (p :: q :: ps) = p ++ sep ++ sep.intercalate (q :: ps) := by
  simp [List.intercalate, List.intersperse]

theorem stringsJoin_stringsSplit (s : List Char) :
    stringsJoin ['-'] (stringsSplit ' ' s) = s.map fun c => if c = ' ' then '-' else c := by
  induction s with
  | nil => simp [stringsJoin, stringsSplit, List.intercalate]
  | cons c cs ih =>
    unfold stringsJoin at ih ⊢
    rw [stringsSplit]
    obtain ⟨p, ps, hps⟩ : ∃ p ps, stringsSplit ' ' cs = p :: ps := by
      cases h : stringsSplit ' ' cs with
      | nil => exact absurd h (stringsSplit_ne_nil _ _)
      | cons p ps => exact ⟨p, ps, rfl⟩
    rw [hps] at ih ⊢
    by_cases hc : c = ' '
    · rw [if_pos hc, intercalate_cons_cons, ih]
      simp [hc]
    · rw [if_neg hc]
      simp only [List.map_cons, if_neg hc]
      rw [← ih]
      cases ps with
      | nil => simp [List.intercalate]
      | cons q qs => simp [intercalate_cons_cons]

theorem cutset_contains_replace (c : Char) :
    (['\n', ' ', '\t'].contains (if isWordChar c then c else ' ')) = !isWordChar c := by
  by_cases h : isWordChar c = true
  · have key : ∀ n, n < 128 → isWordChar (Char.ofNat n) = true →
        ['\n', ' ', '\t'].contains (Char.ofNat n) = false := by decide
    have := ascii_forall
      (fun c => isWordChar c = true → ['\n', ' ', '\t'].contains c = false) key
      (isWordChar_toNat_lt h) h
    rw [if_pos h, this, h]; rfl
  · rw [if_neg h]
    have h' : isWordChar c = false := by simpa using h
    rw [h']; decide

theorem dropWhile_map_of {α β : Type} (f : α → β) (p : β → Bool) (q : α → Bool)
    (h : ∀ a, p (f a) = q a) (s : List α) :
    (s.map f).dropWhile p = (s.dropWhile q).map f := by
  induction s with
  | nil => rfl
  | cons a as ih =>
    simp only [List.map_cons, List.dropWhile_cons, h]
    cases q a
    · simp
    · simpa using ih

theorem dropWhile_cutset_replace (s : List Char) :
    (replaceAllNonWord s).dropWhile (fun c => ['\n', ' ', '\t'].contains c)
      = replaceAllNonWord (s.dropWhile fun c => !isWordChar c) :=
  dropWhile_map_of (fun c => if isWordChar c then c else ' ')
    (fun c => ['\n', ' ', '\t'].contains c) (fun c => !isWordChar c)
    cutset_contains_replace s

theorem stringsTrim_replace (s : List Char) :
    stringsTrim ['\n', ' ', '\t'] (replaceAllNonWord s) = replaceAllNonWord (trimNonWord s) := by
  unfold stringsTrim trimLeft trimRight trimNonWord
  rw [dropWhile_cutset_replace]
  have hrev : ∀ t : List Char, (replaceAllNonWord t).reverse = replaceAllNonWord t.reverse := by
    intro t; simp [replaceAllNonWord]
  rw [hrev, dropWhile_cutset_replace, hrev]

theorem slug_char_eq (c : Char) :
    Char.toLower ((fun c => if c = ' ' then '-' else c) (if isWordChar c then c else ' '))
      = slugChar c := by
  by_cases h : isWordChar c = true
  · have hne : c ≠ ' ' := by
      intro hc; subst hc; revert h; decide
    simp [slugChar, h, hne]
  · simp only [slugChar, if_neg h]
    decide

theorem slug_closed_form (s : List Char) :
    stringsToLower (stringsJoin ['-'] (stringsSplit ' '
        (stringsTrim ['\n', ' ', '\t'] (replaceAllNonWord s))))
      = (trimNonWord s).map slugChar := by
  rw [stringsTrim_replace, stringsJoin_stringsSplit]
  simp only [stringsToLower, replaceAllNonWord, List.map_map]
  apply List.map_congr_left
  intro c _
  exact slug_char_eq c

theorem getADRFileName_data (adr : ADR) :
    (getADRFileName adr).data
      = sprintf04d adr.Number ++ '-' :: (trimNonWord adr.Name.data).map slugChar := by
  simp only [getADRFileName, String.data_append, slug_closed_form]
  simp

end Radr

namespace Radr

/-! ## Decimal formatting and parsing -/

theorem digitChar_isDigit {d : Nat} (h : d < 10) : (digitChar d).isDigit = true := by
  have key : ∀ d, d < 10 → (digitChar d).isDigit = true := by decide
  exact key d h

theorem digitChar_value {d : Nat} (h : d < 10) : (digitChar d).toNat - 48 = d := by
  have key : ∀ d, d < 10 → (digitChar d).toNat - 48 = d := by decide
  exact key d h

theorem digitChar_ne_zero {d : Nat} (h : d < 10) (hd : 0 < d) : digitChar d ≠ '0' := by
  have key : ∀ d, d < 10 → 0 < d → digitChar d ≠ '0' := by decide
  exact key d h hd

theorem isDigit_toNat_lt {c : Char} (h : c.isDigit = true) : c.toNat < 128 := by
  simp only [Char.isDigit, Bool.and_eq_true, decide_eq_true_eq] at h
  have : c.val.toNat ≤ 57 := h.2
  exact Nat.lt_of_le_of_lt this (by decide)

theorem isDigit_ne_sign {c : Char} (h : c.isDigit = true) : c ≠ '-' ∧ c ≠ '+' := by
  have key : ∀ n, n < 128 → (Char.ofNat n).isDigit = true →
      Char.ofNat n ≠ '-' ∧ Char.ofNat n ≠ '+' := by decide
  exact ascii_forall (fun c => c.isDigit = true → c ≠ '-' ∧ c ≠ '+') key (isDigit_toNat_lt h) h

theorem isDigit_isFileNameChar {c : Char} (h : c.isDigit = true) : isFileNameChar c = true := by
  simp [isFileNameChar, h]

theorem decimalFuel_all_digit (fuel n : Nat) : ∀ c ∈ decimalFuel fuel n, c.isDigit = true := by
  induction fuel generalizing n with
  | zero => intro c hc; simp [decimalFuel] at hc
  | succ fuel ih =>
    intro c hc
    rw [decimalFuel] at hc
    split at hc
    · rename_i h
      rw [List.mem_singleton] at hc
      subst hc
      exact digitChar_isDigit h
    · rw [List.mem_append, List.mem_singleton] at hc
      rcases hc with hc | hc
      · exact ih _ c hc
      · subst hc
        exact digitChar_isDigit (Nat.mod_lt _ (by decide))

theorem digitsValue_append_single (s : List Char) (c : Char) :
    digitsValue (s ++ [c]) = digitsValue s * 10 + (c.toNat - 48) := by
  simp [digitsValue, List.foldl_append]

theorem digitsValue_decimalFuel (fuel n : Nat) (h : n < fuel) :
    digitsValue (decimalFuel fuel n) = n := by
  induction fuel generalizing n with
  | zero => omega
  | succ fuel ih =>
    rw [decimalFuel]
    split
    · rename_i hn
      simp [digitsValue, digitChar_value hn]
    · rw [digitsValue_append_single, ih (n / 10) (by omega),
        digitChar_value (Nat.mod_lt _ (by decide))]
      omega

theorem decimalFuel_length_le (fuel n k : Nat) (hk : 0 < k) (h : n < 10 ^ k) :
    (decimalFuel fuel n).length ≤ k := by
  induction fuel generalizing n k with
  | zero => simp [decimalFuel]
  | succ fuel ih =>
    rw [decimalFuel]
    split
    · simpa using hk
    · rename_i hn
      obtain ⟨j, rfl⟩ : ∃ j, k = j + 1 := ⟨k - 1, by omega⟩
      have hj : 0 < j := by
        rcases Nat.eq_zero_or_pos j with hj | hj
        · subst hj; simp at h; omega
        · exact hj
      have hlt : n / 10 < 10 ^ j := by
        rw [Nat.div_lt_iff_lt_mul (by decide)]
        rwa [Nat.pow_succ] at h
      have := ih (n / 10) j hj hlt
      simp only [List.length_append, List.length_singleton]
      omega

theorem decimalFuel_length_ge (fuel n k : Nat) (hf : n < fuel) (h : 10 ^ k ≤ n) :
    k + 1 ≤ (decimalFuel fuel n).length := by
  induction fuel generalizing n k with
  | zero => omega
  | succ fuel ih =>
    rw [decimalFuel]
    split
    · rename_i hn
      cases k with
      | zero => simp
      | succ j =>
        have : 10 ≤ 10 ^ (j + 1) := by
          rw [Nat.pow_succ]
          exact Nat.le_mul_of_pos_left 10 (Nat.pow_pos (by decide))
        omega
    · rename_i hn
      simp only [List.length_append, List.length_singleton]
      cases k with
      | zero => omega
      | succ j =>
        have hle : 10 ^ j ≤ n / 10 := by
          rw [Nat.le_div_iff_mul_le (by decide)]
          rwa [Nat.pow_succ] at h
        have := ih (n / 10) j (by omega) hle
        omega

theorem decimalFuel_head (fuel n : Nat) (hf : n < fuel) (hn : 0 < n) :
    ∃ c cs, decimalFuel fuel n = c :: cs ∧ c ≠ '0' := by
  induction fuel generalizing n with
  | zero => omega
  | succ fuel ih =>
    rw [decimalFuel]
    split
    · rename_i h
      exact ⟨digitChar n, [], rfl, digitChar_ne_zero h hn⟩
    · obtain ⟨c, cs, hcs, hc⟩ := ih (n / 10) (by omega) (Nat.div_pos (by omega) (by decide))
      exact ⟨c, cs ++ [digitChar (n % 10)], by rw [hcs]; rfl, hc⟩

theorem digitsValue_zero_cons (s : List Char) : digitsValue ('0' :: s) = digitsValue s := by
  simp [digitsValue]

theorem digitsValue_zeroPad (w : Nat) (ds : List Char) :
    digitsValue (zeroPad w ds) = digitsValue ds := by
  unfold zeroPad
  induction w - ds.length with
  | zero => simp
  | succ k ih => rw [List.replicate_succ, List.cons_append, digitsValue_zero_cons, ih]

theorem zeroPad_all_digit (w : Nat) (ds : List Char) (h : ∀ c ∈ ds, c.isDigit = true) :
    ∀ c ∈ zeroPad w ds, c.isDigit = true := by
  intro c hc
  rw [zeroPad, List.mem_append] at hc
  rcases hc with hc | hc
  · rw [List.mem_replicate] at hc
    rw [hc.2]; rfl
  · exact h c hc

theorem zeroPad_length (w : Nat) (ds : List Char) :
    (zeroPad w ds).length = max w ds.length := by
  simp [zeroPad]; omega

theorem zeroPad_of_le (w : Nat) (ds : List Char) (h : w ≤ ds.length) : zeroPad w ds = ds := by
  simp [zeroPad, Nat.sub_eq_zero_of_le h]

theorem zeroPad_ne_nil (w : Nat) (ds : List Char) (h : 0 < w) : zeroPad w ds ≠ [] := by
  intro hnil
  have := zeroPad_length w ds
  rw [hnil] at this
  simp at this
  omega

theorem sprintf04d_of_nonneg {n : Int} (h : 0 ≤ n) :
    sprintf04d n = zeroPad 4 (decimal n.toNat) := by
  have hna : n.natAbs = n.toNat := by omega
  rw [sprintf04d, if_neg (by omega), hna]

theorem sprintf04d_isFileNameChar (n : Int) : ∀ c ∈ sprintf04d n, isFileNameChar c = true := by
  intro c hc
  rw [sprintf04d] at hc
  split at hc
  · rw [List.mem_cons] at hc
    rcases hc with hc | hc
    · subst hc; rfl
    · exact isDigit_isFileNameChar (zeroPad_all_digit _ _ (decimalFuel_all_digit _ _) c hc)
  · exact isDigit_isFileNameChar (zeroPad_all_digit _ _ (decimalFuel_all_digit _ _) c hc)

theorem splitN2Head_append (ds rest : List Char) (h : ∀ c ∈ ds, c.isDigit = true) :
    splitN2Head (ds ++ '-' :: rest) = ds := by
  induction ds with
  | nil => simp [splitN2Head]
  | cons d ds ih =>
    have hd : (d != '-') = true := by
      have := (isDigit_ne_sign (h d (List.mem_cons_self _ _))).1
      simpa using this
    have := ih (fun c hc => h c (List.mem_cons_of_mem _ hc))
    simp only [splitN2Head, List.cons_append, List.takeWhile_cons, hd] at this ⊢
    simp [this]

end Radr

namespace Radr

/-! ## Parsing the number of a file name -/

theorem parseUint_digits (ds : List Char) (hne : ds ≠ []) (hd : ∀ c ∈ ds, c.isDigit = true)
    (hv : digitsValue ds < 2 ^ 64) : parseUint ds = some (digitsValue ds) := by
  have hall : ds.all Char.isDigit = true := by
    rw [List.all_eq_true]; exact hd
  rw [parseUint, if_neg hne, if_pos hall, if_pos hv]

theorem atoi_digits (ds : List Char) (hne : ds ≠ []) (hd : ∀ c ∈ ds, c.isDigit = true)
    (hv : digitsValue ds < 2 ^ 63) : atoi ds = some (digitsValue ds : Int) := by
  cases ds with
  | nil => exact absurd rfl hne
  | cons c rest =>
    have hc := isDigit_ne_sign (hd c (List.mem_cons_self _ _))
    have hbody : (if c = '+' ∨ c = '-' then rest else c :: rest) = c :: rest := by
      rw [if_neg]; rintro (h | h)
      · exact hc.2 h
      · exact hc.1 h
    have hneg : (c == '-') = false := by simpa using hc.1
    have hp := parseUint_digits (c :: rest) hne hd (by omega)
    simp only [atoi, hbody, hp, hneg]
    rw [if_neg (by simp), if_neg (by omega)]

theorem atoi_range (s : List Char) (hs : ∀ c ∈ s, c ≠ '-') (v : Int) (h : atoi s = some v) :
    0 ≤ v ∧ v ≤ maxInt := by
  cases s with
  | nil => simp [atoi] at h
  | cons c rest =>
    have hneg : (c == '-') = false := by simpa using hs c (List.mem_cons_self _ _)
    simp only [atoi, hneg] at h
    split at h
    · exact absurd h (by simp)
    · rename_i un _
      rw [if_neg (by simp)] at h
      split at h
      · exact absurd h (by simp)
      · rename_i hlt
        have hv : v = (un : Int) := by
          have := Option.some.inj h
          exact this.symm
        unfold maxInt
        omega

theorem splitN2Head_no_hyphen (s : List Char) : ∀ c ∈ splitN2Head s, c ≠ '-' := by
  intro c hc
  have := List.mem_takeWhile_imp hc
  simpa using this

theorem getNumberFromADR_range (fileName : String) :
    0 ≤ getNumberFromADR fileName ∧ getNumberFromADR fileName ≤ maxInt := by
  unfold getNumberFromADR
  split
  · unfold maxInt; omega
  · rename_i v h
    exact atoi_range _ (splitN2Head_no_hyphen _) v h

theorem decimal_value (n : Nat) : digitsValue (decimal n) = n :=
  digitsValue_decimalFuel (n + 1) n (Nat.lt_succ_self n)

theorem getNumberFromADR_of_prefix (n : Nat) (rest : List Char) (h : (n : Int) ≤ maxInt) :
    getNumberFromADR (String.mk (zeroPad 4 (decimal n) ++ '-' :: rest)) = n := by
  have hd : ∀ c ∈ zeroPad 4 (decimal n), c.isDigit = true :=
    zeroPad_all_digit _ _ (decimalFuel_all_digit _ _)
  have hv : digitsValue (zeroPad 4 (decimal n)) = n := by
    rw [digitsValue_zeroPad, decimal_value]
  have hlt : digitsValue (zeroPad 4 (decimal n)) < 2 ^ 63 := by
    rw [hv]; unfold maxInt at h; omega
  rw [getNumberFromADR]
  simp only [splitN2Head_append _ _ hd, atoi_digits _ (zeroPad_ne_nil 4 _ (by decide)) hd hlt, hv]

theorem wrapInt_succ (x : Int) (h0 : 0 ≤ x) (h1 : x < maxInt) : wrapInt (x + 1) = x + 1 := by
  unfold wrapInt
  unfold maxInt at h1
  omega

theorem wrapInt_maxInt : wrapInt (maxInt + 1) = -2 ^ 63 := by
  decide

/-- The loop of `getNextNumber` started from any non-negative value. -/
theorem scan_eq_max (files : List String) (init : Int) (h0 : 0 ≤ init) :
    files.foldl (fun nextNumber file =>
      if hasSuffix file ".md" then
        let adrNumber := getNumberFromADR file
        if adrNumber > nextNumber then adrNumber else nextNumber
      else nextNumber) init
    = max init (maxNumber ((files.filter fun f => hasSuffix f ".md").map getNumberFromADR)) := by
  induction files generalizing init with
  | nil => simpa [maxNumber] using h0
  | cons f fs ih =>
    rw [List.foldl_cons]
    by_cases hmd : hasSuffix f ".md" = true
    · simp only [hmd, if_true, List.filter_cons_of_pos, List.map_cons]
      have hr := (getNumberFromADR_range f).1
      split
      · rw [ih _ hr]
        simp only [maxNumber, List.foldr_cons]
        omega
      · rw [ih _ h0]
        simp only [maxNumber, List.foldr_cons]
        omega
    · simp only [hmd, Bool.false_eq_true, if_false, List.filter_cons]
      exact ih _ h0

theorem maxNumber_nonneg (ns : List Int) : 0 ≤ maxNumber ns := by
  induction ns with
  | nil => simp [maxNumber]
  | cons n ns ih =>
    simp only [maxNumber, List.foldr_cons] at ih ⊢
    omega

theorem maxNumber_le (ns : List Int) (b : Int) (hb : 0 ≤ b) (h : ∀ n ∈ ns, n ≤ b) :
    maxNumber ns ≤ b := by
  induction ns with
  | nil => simpa [maxNumber] using hb
  | cons n ns ih =>
    have h1 := h n (List.mem_cons_self _ _)
    have h2 := ih (fun m hm => h m (List.mem_cons_of_mem _ hm))
    simp only [maxNumber, List.foldr_cons] at h2 ⊢
    omega

theorem le_maxNumber (ns : List Int) (n : Int) (h : n ∈ ns) : n ≤ maxNumber ns := by
  induction ns with
  | nil => simp at h
  | cons m ns ih =>
    simp only [maxNumber, List.foldr_cons] at ih ⊢
    rcases List.mem_cons.mp h with h | h
    · subst h; omega
    · have := ih h; omega

theorem maxNumber_perm {l₁ l₂ : List Int} (h : l₁.Perm l₂) : maxNumber l₁ = maxNumber l₂ := by
  induction h with
  | nil => rfl
  | cons x _ ih =>
    simp only [maxNumber, List.foldr_cons] at ih ⊢
    rw [ih]
  | swap x y l =>
    simp only [maxNumber, List.foldr_cons]
    omega
  | trans _ _ ih₁ ih₂ => exact ih₁.trans ih₂

/-- The number `getNextNumber` returns, before and after the wrap. -/
theorem getNextNumber_eq (files : List String) :
    getNextNumber files
      = wrapInt (maxNumber ((files.filter fun f => hasSuffix f ".md").map getNumberFromADR) + 1) := by
  unfold getNextNumber
  simp only [scan_eq_max files 0 (le_refl 0)]
  rw [max_eq_right (maxNumber_nonneg _)]

end Radr

namespace Radr

/-! ## Trimming, suffixes and the remaining helpers -/

theorem mem_dropWhile_of {α : Type} (p : α → Bool) (l : List α) (x : α) (hx : x ∈ l)
    (hp : p x = false) : x ∈ l.dropWhile p := by
  induction l with
  | nil => exact absurd hx (List.not_mem_nil _)
  | cons a as ih =>
    rw [List.dropWhile_cons]
    cases hpa : p a
    · simpa using hx
    · rcases List.mem_cons.mp hx with h | h
      · subst h; rw [hp] at hpa; exact absurd hpa (by simp)
      · simpa using ih h

theorem dropWhile_head_of {α : Type} (p : α → Bool) (l : List α) (x : α) (hx : x ∈ l)
    (hp : p x = false) : ∃ y ys, l.dropWhile p = y :: ys ∧ p y = false := by
  induction l with
  | nil => exact absurd hx (List.not_mem_nil _)
  | cons a as ih =>
    rw [List.dropWhile_cons]
    cases hpa : p a
    · exact ⟨a, as, by simp, hpa⟩
    · rcases List.mem_cons.mp hx with h | h
      · subst h; rw [hp] at hpa; exact absurd hpa (by simp)
      · simpa using ih h

theorem trimNonWord_of_word (s : List Char) (x : Char) (hx : x ∈ s) (hw : isWordChar x = true) :
    ∃ ys y, trimNonWord s = ys ++ [y] ∧ isWordChar y = true := by
  have h1 : x ∈ (s.dropWhile fun c => !isWordChar c).reverse :=
    List.mem_reverse.mpr (mem_dropWhile_of _ s x hx (by simp [hw]))
  obtain ⟨y, ys, hy, hpy⟩ := dropWhile_head_of (fun c => !isWordChar c) _ x h1 (by simp [hw])
  refine ⟨ys.reverse, y, ?_, by simpa using hpy⟩
  rw [trimNonWord, hy, List.reverse_cons]

theorem trimNonWord_of_no_word (s : List Char) (h : ∀ c ∈ s, isWordChar c = false) :
    trimNonWord s = [] := by
  have h1 : (s.dropWhile fun c => !isWordChar c) = [] := by
    rw [List.dropWhile_eq_nil_iff]
    intro c hc; simp [h c hc]
  rw [trimNonWord, h1]; rfl

theorem slugChar_ne_hyphen {c : Char} (h : isWordChar c = true) : slugChar c ≠ '-' := by
  have key : ∀ n, n < 128 → isWordChar (Char.ofNat n) = true →
      slugChar (Char.ofNat n) ≠ '-' := by decide
  exact ascii_forall (fun c => isWordChar c = true → slugChar c ≠ '-') key
    (isWordChar_toNat_lt h) h

theorem not_isSuffixOf_snoc (l : List Char) (y : Char) (hy : y ≠ '-') :
    List.isSuffixOf ['-'] (l ++ [y]) = false := by
  rw [Bool.eq_false_iff]
  intro h
  rw [List.isSuffixOf_iff_suffix] at h
  obtain ⟨t, ht⟩ := h
  have := List.append_inj_right' ht rfl
  simp at this
  exact hy this.symm

/-- The text handed to `strings.ToLower` in `getADRFileName` is ASCII. -/
theorem toLower_argument_ascii (s : List Char) :
    ∀ c ∈ stringsJoin ['-'] (stringsSplit ' '
        (stringsTrim ['\n', ' ', '\t'] (replaceAllNonWord s))), c.toNat < 128 := by
  intro c hc
  rw [stringsTrim_replace, stringsJoin_stringsSplit] at hc
  simp only [replaceAllNonWord, List.map_map, List.mem_map, Function.comp] at hc
  obtain ⟨a, _, rfl⟩ := hc
  by_cases ha : isWordChar a = true
  · rw [if_pos ha]
    split
    · decide
    · exact isWordChar_toNat_lt ha
  · rw [if_neg ha]; decide

theorem tocEntries_loop (readFile : String → Except String String)
    (unmarshal : String → Except String ADR) (record : String → ADR) (files : List String)
    (h : ∀ f ∈ files, hasSuffix f ".yaml" = true →
      ∃ adrYaml, readFile f = Except.ok adrYaml ∧ unmarshal adrYaml = Except.ok (record f))
    (acc : List TOCEntry) :
    files.foldlM (fun tocEntry file =>
      if hasSuffix file ".yaml" then
        match readFile file with
        | Except.error e => Except.error e
        | Except.ok adrYaml =>
          match unmarshal adrYaml with
          | Except.error e => Except.error e
          | Except.ok adr =>
            Except.ok (tocEntry ++ [{ Number := adr.Number, Name := adr.Name,
                                      Link := getADRFileName adr ++ ".md" }])
      else Except.ok tocEntry) acc
    = Except.ok (acc ++ (files.filter fun f => hasSuffix f ".yaml").map
        fun f => tocEntryOf (record f)) := by
  induction files generalizing acc with
  | nil => simp [List.foldlM]; rfl
  | cons f fs ih =>
    have ih' := ih (fun g hg => h g (List.mem_cons_of_mem _ hg))
    rw [List.foldlM_cons]
    by_cases hy : hasSuffix f ".yaml" = true
    · obtain ⟨adrYaml, h1, h2⟩ := h f (List.mem_cons_self _ _) hy
      simp only [hy, if_true, h1, h2]
      show (Except.ok _ >>= _) = _
      simp only [bind, Except.bind]
      rw [ih']
      simp [List.filter_cons, hy, tocEntryOf]
    · simp only [hy, Bool.false_eq_true, if_false]
      show (Except.ok _ >>= _) = _
      simp only [bind, Except.bind]
      rw [ih']
      simp [List.filter_cons, hy]

theorem utf8ByteSize_go_ascii (l : List Char) (h : ∀ c ∈ l, c.toNat < 128) :
    String.utf8ByteSize.go l = l.length := by
  induction l with
  | nil => rfl
  | cons c cs ih =>
    have hc : c.utf8Size = 1 := by
      have hlt := h c (List.mem_cons_self _ _)
      have hle : c.val ≤ UInt32.ofNatCore 0x7F (by decide) := by
        show c.val.toNat ≤ 127
        have : c.val.toNat = c.toNat := rfl
        omega
      simp only [Char.utf8Size]
      rw [if_pos hle]
    rw [String.utf8ByteSize.go, ih (fun d hd => h d (List.mem_cons_of_mem _ hd)), hc]
    simp

theorem utf8ByteSize_ascii (s : String) (h : ∀ c ∈ s.data, c.toNat < 128) :
    s.utf8ByteSize = s.length := by
  cases s with
  | mk l => exact utf8ByteSize_go_ascii l h

theorem validate_ok_iff (input : String) :
    validate input = Except.ok () ↔ 3 < input.utf8ByteSize ∧ input.utf8ByteSize < 64 := by
  unfold validate
  split
  · simp; omega
  · split
    · simp; omega
    · simp; omega

end Radr

namespace Radr

theorem natDigitChar_eq {d : Nat} (h : d < 10) : Nat.digitChar d = digitChar d := by
  have key : ∀ d, d < 10 → Nat.digitChar d = digitChar d := by decide
  exact key d h

theorem toDigitsCore_eq (fuel n : Nat) (ds : List Char) (h : n < fuel) :
    Nat.toDigitsCore 10 fuel n ds = decimalFuel fuel n ++ ds := by
  induction fuel generalizing n ds with
  | zero => omega
  | succ fuel ih =>
    rw [Nat.toDigitsCore, decimalFuel]
    simp only [natDigitChar_eq (Nat.mod_lt n (by decide : 0 < 10))]
    by_cases hn : n < 10
    · rw [if_pos hn, if_pos (by omega), Nat.mod_eq_of_lt hn]
      rfl
    · rw [if_neg hn, if_neg (by omega), ih _ _ (by omega)]
      simp

/-- The model of decimal formatting agrees with Lean's own `Nat.repr`. -/
theorem decimal_eq_repr (n : Nat) : decimal n = (Nat.repr n).data := by
  simp only [Nat.repr, Nat.toDigits, List.asString, decimal]
  rw [toDigitsCore_eq _ _ _ (Nat.lt_succ_self n)]
  simp

/-! ## Word runs -/

theorem wordRunsAux_nil (cur : List Char) :
    wordRunsAux cur [] = if cur = [] then [] else [cur.reverse] := by
  simp only [wordRunsAux]

theorem wordRunsAux_cons_word (cur cs : List Char) {c : Char} (h : isWordChar c = true) :
    wordRunsAux cur (c :: cs) = wordRunsAux (c :: cur) cs := by
  simp only [wordRunsAux, h, if_true]

theorem wordRunsAux_cons_nonword_nil (cs : List Char) {c : Char} (h : isWordChar c = false) :
    wordRunsAux [] (c :: cs) = wordRunsAux [] cs := by
  simp only [wordRunsAux, h, Bool.false_eq_true, if_false, if_true]

theorem wordRunsAux_cons_nonword (cur cs : List Char) {c : Char} (h : isWordChar c = false)
    (hcur : cur ≠ []) : wordRunsAux cur (c :: cs) = cur.reverse :: wordRunsAux [] cs := by
  simp only [wordRunsAux, h, Bool.false_eq_true, if_false, hcur]

theorem wordRunsAux_nonword (cur v : List Char) (hv : ∀ c ∈ v, isWordChar c = false) :
    wordRunsAux cur v = wordRunsAux cur [] := by
  induction v generalizing cur with
  | nil => rfl
  | cons c cs ih =>
    have hc : isWordChar c = false := hv c (List.mem_cons_self _ _)
    have hcs := fun d hd => hv d (List.mem_cons_of_mem _ hd)
    by_cases hcur : cur = []
    · subst hcur
      rw [wordRunsAux_cons_nonword_nil _ hc, ih [] hcs]
    · rw [wordRunsAux_cons_nonword _ _ hc hcur, ih [] hcs, wordRunsAux_nil, wordRunsAux_nil,
        if_pos rfl, if_neg hcur]

theorem wordRunsAux_append_nonword (cur u v : List Char)
    (hv : ∀ c ∈ v, isWordChar c = false) :
    wordRunsAux cur (u ++ v) = wordRunsAux cur u := by
  induction u generalizing cur with
  | nil => rw [List.nil_append, wordRunsAux_nonword cur v hv]
  | cons c cs ih =>
    rw [List.cons_append]
    by_cases hc : isWordChar c = true
    · rw [wordRunsAux_cons_word _ _ hc, wordRunsAux_cons_word _ _ hc, ih]
    · have hc' : isWordChar c = false := by simpa using hc
      by_cases hcur : cur = []
      · subst hcur
        rw [wordRunsAux_cons_nonword_nil _ hc', wordRunsAux_cons_nonword_nil _ hc', ih]
      · rw [wordRunsAux_cons_nonword _ _ hc' hcur, wordRunsAux_cons_nonword _ _ hc' hcur, ih]

theorem wordRunsAux_dropWhile (s : List Char) :
    wordRunsAux [] (s.dropWhile fun c => !isWordChar c) = wordRunsAux [] s := by
  induction s with
  | nil => rfl
  | cons c cs ih =>
    rw [List.dropWhile_cons]
    by_cases hc : isWordChar c = true
    · simp [hc]
    · have hc' : isWordChar c = false := by simpa using hc
      simp only [hc', Bool.not_false, if_true, ih]
      rw [wordRunsAux_cons_nonword_nil _ hc']

theorem rtrim_append (u : List Char) :
    ∃ v, u = (u.reverse.dropWhile fun c => !isWordChar c).reverse ++ v
      ∧ ∀ c ∈ v, isWordChar c = false := by
  refine ⟨(u.reverse.takeWhile fun c => !isWordChar c).reverse, ?_, ?_⟩
  · rw [← List.reverse_append, List.takeWhile_append_dropWhile, List.reverse_reverse]
  · intro c hc
    have := List.mem_takeWhile_imp (List.mem_reverse.mp hc)
    simpa using this

theorem wordRunsAux_trimNonWord (s : List Char) :
    wordRunsAux [] (trimNonWord s) = wordRunsAux [] s := by
  obtain ⟨v, hv, hnw⟩ := rtrim_append (s.dropWhile fun c => !isWordChar c)
  rw [← wordRunsAux_dropWhile s]
  conv => rhs; rw [hv]
  rw [wordRunsAux_append_nonword _ _ _ hnw]
  rfl

theorem wordRunsAux_ne_nil (cur l : List Char) (hcur : cur ≠ []) : wordRunsAux cur l ≠ [] := by
  induction l generalizing cur with
  | nil => rw [wordRunsAux_nil, if_neg hcur]; simp
  | cons c cs ih =>
    by_cases hc : isWordChar c = true
    · rw [wordRunsAux_cons_word _ _ hc]
      exact ih _ (by simp)
    · have hc' : isWordChar c = false := by simpa using hc
      rw [wordRunsAux_cons_nonword _ _ hc' hcur]; simp

theorem slugChar_of_word {c : Char} (h : isWordChar c = true) : slugChar c = c.toLower := by
  rw [slugChar, if_pos h]

theorem slugChar_of_nonword {c : Char} (h : isWordChar c = false) : slugChar c = '-' := by
  rw [slugChar, if_neg (by simp [h])]

theorem runs_join (l : List Char) : ∀ cur : List Char,
    noAdjacentSeparators l = true →
    (∀ x, l.getLast? = some x → isWordChar x = true) →
    (cur = [] → ∀ x, l.head? = some x → isWordChar x = true) →
    ['-'].intercalate ((wordRunsAux cur l).map fun run => run.map Char.toLower)
      = cur.reverse.map Char.toLower ++ l.map slugChar := by
  induction l with
  | nil =>
    intro cur _ _ _
    by_cases hcur : cur = []
    · simp [wordRunsAux_nil, hcur, List.intercalate]
    · simp [wordRunsAux_nil, hcur, List.intercalate]
  | cons c cs ih =>
    intro cur hadj hlast hhead
    by_cases hc : isWordChar c = true
    · have hadj' : noAdjacentSeparators cs = true := by
        cases cs with
        | nil => rfl
        | cons d ds =>
          simp only [noAdjacentSeparators, Bool.and_eq_true] at hadj
          exact hadj.2
      have hlast' : ∀ x, cs.getLast? = some x → isWordChar x = true := by
        intro x hx
        cases cs with
        | nil => simp at hx
        | cons d ds => exact hlast x (by rw [List.getLast?_cons_cons]; exact hx)
      rw [wordRunsAux_cons_word _ _ hc,
        ih (c :: cur) hadj' hlast' (fun h => absurd h (by simp))]
      simp [slugChar_of_word hc]
    · have hc' : isWordChar c = false := by simpa using hc
      have hcur : cur ≠ [] := by
        intro h
        have := hhead h c rfl
        rw [hc'] at this
        exact absurd this (by simp)
      cases cs with
      | nil =>
        have := hlast c rfl
        rw [hc'] at this
        exact absurd this (by simp)
      | cons d ds =>
        simp only [noAdjacentSeparators, hc', Bool.false_or, Bool.and_eq_true] at hadj
        have hlast' : ∀ x, (d :: ds).getLast? = some x → isWordChar x = true := by
          intro x hx
          exact hlast x (by rw [List.getLast?_cons_cons]; exact hx)
        have hrec := ih [] hadj.2 hlast' (fun _ x hx => by
          simp only [List.head?_cons, Option.some.injEq] at hx
          rw [← hx]; exact hadj.1)
        rw [wordRunsAux_cons_nonword _ _ hc' hcur]
        obtain ⟨r, rs, hrs⟩ : ∃ r rs, wordRunsAux [] (d :: ds) = r :: rs := by
          cases h : wordRunsAux [] (d :: ds) with
          | nil =>
            rw [wordRunsAux_cons_word _ _ hadj.1] at h
            exact absurd h (wordRunsAux_ne_nil _ _ (by simp))
          | cons r rs => exact ⟨r, rs, rfl⟩
        rw [hrs] at hrec ⊢
        simp only [List.map_cons] at hrec ⊢
        rw [intercalate_cons_cons, hrec, slugChar_of_nonword hc']
        simp

theorem trimNonWord_head (s : List Char) :
    ∀ x, (trimNonWord s).head? = some x → isWordChar x = true := by
  intro x hx
  have hpre : trimNonWord s <+: s.dropWhile fun c => !isWordChar c := by
    unfold trimNonWord
    rw [← List.reverse_suffix, List.reverse_reverse]
    exact List.dropWhile_suffix _
  cases ht : trimNonWord s with
  | nil => rw [ht] at hx; simp at hx
  | cons a as =>
    rw [ht] at hx hpre
    simp only [List.head?_cons, Option.some.injEq] at hx
    subst hx
    obtain ⟨t, ht2⟩ := hpre
    have hmem : a ∈ s := by
      have : a ∈ s.dropWhile fun c => !isWordChar c := by rw [← ht2]; simp
      exact (List.dropWhile_suffix _).subset this
    by_contra hna
    have hna' : isWordChar a = false := by simpa using hna
    cases hs : s.dropWhile (fun c => !isWordChar c) with
    | nil => rw [hs] at ht2; simp at ht2
    | cons y ys =>
      rw [hs] at ht2
      simp only [List.cons_append, List.cons.injEq] at ht2
      have hy := List.head_dropWhile_not (fun c => !isWordChar c) s (by rw [hs]; simp)
      simp only [hs, List.head_cons] at hy
      rw [← ht2.1, hna'] at hy
      simp at hy

theorem trimNonWord_last (s : List Char) :
    ∀ x, (trimNonWord s).getLast? = some x → isWordChar x = true := by
  intro x hx
  by_cases h : ∃ c ∈ s, isWordChar c = true
  · obtain ⟨c, hc, hw⟩ := h
    obtain ⟨ys, y, hy, hwy⟩ := trimNonWord_of_word s c hc hw
    rw [hy, List.getLast?_append] at hx
    simp at hx
    rw [← hx]; exact hwy
  · rw [trimNonWord_of_no_word s (fun c hc => by
      by_contra hcw
      exact h ⟨c, hc, by simpa using hcw⟩)] at hx
    simp at hx

/-- With isolated separators the slug of the program is the slug of the
specification. -/
theorem slug_eq_specSlug (name : String)
    (h : noAdjacentSeparators (trimNonWord name.data) = true) :
    (trimNonWord name.data).map slugChar = specSlug name := by
  have := runs_join (trimNonWord name.data) [] h (trimNonWord_last _)
    (fun _ => trimNonWord_head _)
  rw [wordRunsAux_trimNonWord] at this
  rw [specSlug, this]
  rfl

/-! ## The claims -/

/-- C1, as it stands, fails: for the name "Use Postgres, not MySQL!" the program
derives the slug "use-postgres--not-mysql" (two hyphens for the comma and the
space), not the single-hyphen join "use-postgres-not-mysql" of the word runs. -/
theorem getADRFileName_slug_counterexample :
    getADRFileName ⟨1, "Use Postgres, not MySQL!", "", ""⟩ = "0001-use-postgres--not-mysql"
    ∧ String.mk (specSlug "Use Postgres, not MySQL!") = "use-postgres-not-mysql"
    ∧ getADRFileName ⟨1, "Use Postgres, not MySQL!", "", ""⟩
        ≠ String.mk (sprintf04d 1 ++ '-' :: specSlug "Use Postgres, not MySQL!") := by
  decide

/-- C1, amended: for every number and name, `getADRFileName` returns the padded
number, a hyphen, and the name without its leading and trailing non-word
characters, in which every word character is lower-cased and every remaining
non-word character is replaced by one hyphen of its own (a run of k separators
inside the name gives k hyphens).  When no two separators are adjacent inside the
name this is the join of the lower-cased word runs with single hyphens; for the
name "Use Postgres, not MySQL!" the slug is "use-postgres--not-mysql". -/
theorem getADRFileName_slug_per_separator (adr : ADR) :
    getADRFileName adr
      = String.mk (sprintf04d adr.Number ++ '-' :: (trimNonWord adr.Name.data).map slugChar)
    ∧ (noAdjacentSeparators (trimNonWord adr.Name.data) = true →
        getADRFileName adr = String.mk (sprintf04d adr.Number ++ '-' :: specSlug adr.Name))
    ∧ getADRFileName ⟨adr.Number, "Use Postgres, not MySQL!", adr.Date, adr.Status⟩
      = String.mk (sprintf04d adr.Number ++ "-use-postgres--not-mysql".data) := by
  refine ⟨String.ext (getADRFileName_data adr), fun h => String.ext ?_, String.ext ?_⟩
  · rw [getADRFileName_data, slug_eq_specSlug adr.Name h]
  · rw [getADRFileName_data]
    have : (trimNonWord "Use Postgres, not MySQL!".data).map slugChar
        = "use-postgres--not-mysql".data := by decide
    simp only [this]

/-- Witness of C1, amended, at a name with single separators. -/
theorem getADRFileName_slug_per_separator_witness :
    noAdjacentSeparators (trimNonWord " Pick a_database.Now!".data) = true
    ∧ getADRFileName ⟨7, " Pick a_database.Now!", "", ""⟩ = "0007-pick-a_database-now" :=
  ⟨by decide,
    ((getADRFileName_slug_per_separator ⟨7, " Pick a_database.Now!", "", ""⟩).2.1
      (by decide)).trans (by decide)⟩

/-- C9: a name without any word character (empty, blank, punctuation only) gives
the padded number followed by one hyphen and nothing else, "0001-" for number 1. -/
theorem getADRFileName_no_word_char (adr : ADR)
    (h : ∀ c ∈ adr.Name.data, isWordChar c = false) :
    getADRFileName adr = String.mk (sprintf04d adr.Number ++ ['-'])
    ∧ (adr.Number = 1 → getADRFileName adr = "0001-") := by
  have key : getADRFileName adr = String.mk (sprintf04d adr.Number ++ ['-']) := by
    apply String.ext
    rw [getADRFileName_data, trimNonWord_of_no_word _ h]
    rfl
  refine ⟨key, fun h1 => ?_⟩
  rw [key, h1]
  decide

/-- Witness of C9 at number 1 and the name "!!!". -/
theorem getADRFileName_no_word_char_witness :
    (∀ c ∈ "!!!".data, isWordChar c = false)
    ∧ getADRFileName ⟨1, "!!!", "2024/01/01", "Accepted"⟩ = "0001-" :=
  ⟨by decide,
    (getADRFileName_no_word_char ⟨1, "!!!", "2024/01/01", "Accepted"⟩ (by decide)).2 rfl⟩

/-- C5: every character of the derived file name is an ASCII lower-case letter, a
decimal digit, an underscore or a hyphen, and when the name has a word character
the file name does not end with a hyphen. -/
theorem getADRFileName_filesystem_safe (adr : ADR) :
    (∀ c ∈ (getADRFileName adr).data, isFileNameChar c = true)
    ∧ ((∃ c ∈ adr.Name.data, isWordChar c = true) →
        hasSuffix (getADRFileName adr) "-" = false) := by
  constructor
  · intro c hc
    rw [getADRFileName_data, List.mem_append, List.mem_cons, List.mem_map] at hc
    rcases hc with hc | hc | ⟨a, _, rfl⟩
    · exact sprintf04d_isFileNameChar _ c hc
    · subst hc; rfl
    · exact slugChar_isFileNameChar a
  · rintro ⟨x, hx, hw⟩
    obtain ⟨ys, y, hy, hwy⟩ := trimNonWord_of_word _ x hx hw
    have hdata : (getADRFileName adr).data
        = (sprintf04d adr.Number ++ '-' :: ys.map slugChar) ++ [slugChar y] := by
      rw [getADRFileName_data, hy]; simp
    unfold hasSuffix
    rw [hdata]
    exact not_isSuffixOf_snoc _ _ (slugChar_ne_hyphen hwy)

/-- Witness of C5 at a name with path separators, dots, blanks, a control
character, upper-case and non-ASCII letters. -/
theorem getADRFileName_filesystem_safe_witness :
    (∃ c ∈ "../Etc/Passwd é\n.".data, isWordChar c = true)
    ∧ hasSuffix (getADRFileName ⟨7, "../Etc/Passwd é\n.", "", ""⟩) "-" = false :=
  ⟨by decide, (getADRFileName_filesystem_safe ⟨7, "../Etc/Passwd é\n.", "", ""⟩).2 (by decide)⟩

end Radr

namespace Radr

theorem splitN2Head_getADRFileName (adr : ADR) (h : 0 ≤ adr.Number) :
    splitN2Head (getADRFileName adr).data = zeroPad 4 (decimal adr.Number.toNat) := by
  rw [getADRFileName_data, sprintf04d_of_nonneg h]
  exact splitN2Head_append _ _ (zeroPad_all_digit _ _ (decimalFuel_all_digit _ _))

/-- C4: for a number from 0 to 9999 the part of the file name before the first
hyphen is exactly four decimal digits of value the number; from 10000 on it is
the full decimal representation of the number, unpadded and untruncated. -/
theorem getADRFileName_leading_digits (adr : ADR) :
    (0 ≤ adr.Number → adr.Number ≤ 9999 →
      (splitN2Head (getADRFileName adr).data).length = 4
      ∧ (∀ c ∈ splitN2Head (getADRFileName adr).data, c.isDigit = true)
      ∧ (digitsValue (splitN2Head (getADRFileName adr).data) : Int) = adr.Number)
    ∧ (10000 ≤ adr.Number →
      splitN2Head (getADRFileName adr).data = (Nat.repr adr.Number.toNat).data
      ∧ (∀ c ∈ splitN2Head (getADRFileName adr).data, c.isDigit = true)
      ∧ (digitsValue (splitN2Head (getADRFileName adr).data) : Int) = adr.Number
      ∧ 5 ≤ (splitN2Head (getADRFileName adr).data).length
      ∧ (splitN2Head (getADRFileName adr).data).head? ≠ some '0') := by
  constructor
  · intro h0 h1
    rw [splitN2Head_getADRFileName adr h0]
    refine ⟨?_, zeroPad_all_digit _ _ (decimalFuel_all_digit _ _), ?_⟩
    · have hlen : (decimal adr.Number.toNat).length ≤ 4 :=
        decimalFuel_length_le _ _ 4 (by decide) (by omega)
      rw [zeroPad_length]
      omega
    · rw [digitsValue_zeroPad, decimal_value]
      omega
  · intro h
    have h0 : 0 ≤ adr.Number := by omega
    have hlen : 5 ≤ (decimal adr.Number.toNat).length :=
      decimalFuel_length_ge _ _ 4 (Nat.lt_succ_self _) (by omega)
    have hpad : zeroPad 4 (decimal adr.Number.toNat) = decimal adr.Number.toNat :=
      zeroPad_of_le _ _ (by omega)
    rw [splitN2Head_getADRFileName adr h0, hpad]
    refine ⟨decimal_eq_repr _, decimalFuel_all_digit _ _, ?_, hlen, ?_⟩
    · rw [decimal_value]; omega
    · obtain ⟨c, cs, hcs, hc⟩ :=
        decimalFuel_head (adr.Number.toNat + 1) adr.Number.toNat (Nat.lt_succ_self _) (by omega)
      unfold decimal
      rw [hcs]
      simpa using hc

/-- Witness of C4: number 1 gives the prefix "0001" and number 12345 the prefix
"12345". -/
theorem getADRFileName_leading_digits_witness :
    ((0 : Int) ≤ 1 ∧ (1 : Int) ≤ 9999 ∧ (10000 : Int) ≤ 12345)
    ∧ splitN2Head (getADRFileName ⟨1, "Pick a database", "", ""⟩).data = "0001".data
    ∧ (digitsValue (splitN2Head (getADRFileName ⟨1, "Pick a database", "", ""⟩).data) : Int) = 1
    ∧ splitN2Head (getADRFileName ⟨12345, "Pick a database", "", ""⟩).data = "12345".data :=
  ⟨by decide, by decide,
    ((getADRFileName_leading_digits ⟨1, "Pick a database", "", ""⟩).1 (by decide) (by decide)).2.2,
    ((getADRFileName_leading_digits ⟨12345, "Pick a database", "", ""⟩).2 (by decide)).1⟩

/-- C2, as it stands, fails: with a file whose prefix is the largest `int` the
addition wraps around and `getNextNumber` returns the smallest `int`, not one
plus the maximum. -/
theorem getNextNumber_overflow_counterexample :
    getNumberFromADR "9223372036854775807-a.md" = 9223372036854775807
    ∧ getNextNumber ["9223372036854775807-a.md"] = -9223372036854775808
    ∧ getNextNumber ["9223372036854775807-a.md"]
        ≠ 1 + maxNumber ((["9223372036854775807-a.md"].filter fun f => hasSuffix f ".md").map
            getNumberFromADR) := by
  decide

theorem parseUint_none (b : List Char) (h : b = [] ∨ b.all Char.isDigit = false) :
    parseUint b = none := by
  unfold parseUint
  rcases h with h | h
  · rw [if_pos h]
  · by_cases hb : b = []
    · rw [if_pos hb]
    · rw [if_neg hb, if_neg (by simp [h])]

theorem atoi_of_not_decimal (s : List Char) (h : isDecimalInteger s = false) :
    atoi s = none := by
  cases s with
  | nil => rfl
  | cons c rest =>
    simp only [isDecimalInteger, Bool.and_eq_false_iff, Bool.not_eq_false_eq_eq_true,
      List.isEmpty_iff] at h
    simp only [atoi, parseUint_none _ h]

theorem atoi_of_nondigit_tail (c x : Char) (rest : List Char) (hx : x ∈ rest)
    (hd : x.isDigit = false) : atoi (c :: rest) = none := by
  apply atoi_of_not_decimal
  simp only [isDecimalInteger, Bool.and_eq_false_iff, Bool.not_eq_false_eq_eq_true]
  right
  rw [List.all_eq_false]
  split
  · exact ⟨x, hx, by simp [hd]⟩
  · exact ⟨x, List.mem_cons_of_mem _ hx, by simp [hd]⟩

theorem splitN2Head_of_no_hyphen (s : List Char) (h : '-' ∉ s) : splitN2Head s = s := by
  unfold splitN2Head
  rw [List.takeWhile_eq_self_iff]
  intro c hc
  have : c ≠ '-' := fun hcc => h (hcc ▸ hc)
  simpa using this

theorem getNumberFromADR_no_hyphen (f : String) (hmd : hasSuffix f ".md" = true)
    (h : '-' ∉ f.data) : getNumberFromADR f = 0 := by
  unfold hasSuffix at hmd
  rw [List.isSuffixOf_iff_suffix] at hmd
  obtain ⟨t, ht⟩ := hmd
  have hnone : atoi f.data = none := by
    rw [← ht]
    cases t with
    | nil => exact atoi_of_nondigit_tail '.' 'd' _ (by decide) (by decide)
    | cons c cs =>
      exact atoi_of_nondigit_tail c 'd' _ (by simp [String.data]) (by decide)
  rw [getNumberFromADR, splitN2Head_of_no_hyphen _ h, hnone]

end Radr

namespace Radr

theorem atoi_out_of_range (ds : List Char) (hd : ∀ c ∈ ds, c.isDigit = true)
    (hv : 2 ^ 63 ≤ digitsValue ds) : atoi ds = none := by
  cases ds with
  | nil => rfl
  | cons c rest =>
    have hc := isDigit_ne_sign (hd c (List.mem_cons_self _ _))
    have hbody : (if c = '+' ∨ c = '-' then rest else c :: rest) = c :: rest := by
      rw [if_neg]; rintro (h | h)
      · exact hc.2 h
      · exact hc.1 h
    have hneg : (c == '-') = false := by simpa using hc.1
    simp only [atoi, hbody, hneg]
    by_cases h64 : digitsValue (c :: rest) < 2 ^ 64
    · rw [parseUint_digits (c :: rest) (by simp) hd h64]
      simp only [Bool.false_eq_true, if_false]
      rw [if_pos hv]
    · have hall : (c :: rest).all Char.isDigit = true := by
        rw [List.all_eq_true]; exact hd
      have hp : parseUint (c :: rest) = none := by
        rw [parseUint, if_neg (by simp), if_pos hall, if_neg h64]
      rw [hp]

/-- Without a markdown entry numbered with the largest `int`, the addition of
`getNextNumber` does not wrap. -/
theorem getNextNumber_of_below_max (files : List String)
    (hmax : ∀ f ∈ files, hasSuffix f ".md" = true → getNumberFromADR f ≠ maxInt) :
    getNextNumber files
      = 1 + maxNumber ((files.filter fun f => hasSuffix f ".md").map getNumberFromADR) := by
  rw [getNextNumber_eq]
  have hle : maxNumber ((files.filter fun f => hasSuffix f ".md").map getNumberFromADR)
      ≤ maxInt - 1 := by
    apply maxNumber_le _ _ (by decide)
    intro n hn
    obtain ⟨f, hf, rfl⟩ := List.mem_map.mp hn
    rw [List.mem_filter] at hf
    have h1 := (getNumberFromADR_range f).2
    have h2 := hmax f hf.1 hf.2
    omega
  rw [wrapInt_succ _ (maxNumber_nonneg _) (by omega)]
  omega

/-- C2, amended: for every directory listing in which no markdown entry has the
largest `int` as its number, `getNextNumber` returns 1 plus the maximum of
`getNumberFromADR` over the entries ending in ".md" (other entries are ignored);
the result does not depend on the order of the listing and is 1 when the
listing is empty or every markdown entry counts as 0.  An entry counts as 0 when
its part before the first hyphen is not a decimal integer, or when it ends in
".md" and has no hyphen; a prefix of decimal digits counts as its value when
that is within the `int` range, and as 0 beyond it. -/
theorem getNextNumber_spec (files : List String)
    (hmax : ∀ f ∈ files, hasSuffix f ".md" = true → getNumberFromADR f ≠ maxInt) :
    getNextNumber files
      = 1 + maxNumber ((files.filter fun f => hasSuffix f ".md").map getNumberFromADR)
    ∧ (∀ files', files'.Perm files → getNextNumber files' = getNextNumber files)
    ∧ (files = [] → getNextNumber files = 1)
    ∧ ((∀ f ∈ files, hasSuffix f ".md" = true → getNumberFromADR f = 0) →
        getNextNumber files = 1)
    ∧ (∀ f : String, isDecimalInteger (splitN2Head f.data) = false → getNumberFromADR f = 0)
    ∧ (∀ f : String, hasSuffix f ".md" = true → '-' ∉ f.data → getNumberFromADR f = 0)
    ∧ (∀ ds rest : List Char, ds ≠ [] → (∀ c ∈ ds, c.isDigit = true) →
        (digitsValue ds : Int) ≤ maxInt →
        getNumberFromADR (String.mk (ds ++ '-' :: rest)) = digitsValue ds)
    ∧ (∀ ds rest : List Char, (∀ c ∈ ds, c.isDigit = true) →
        maxInt < (digitsValue ds : Int) →
        getNumberFromADR (String.mk (ds ++ '-' :: rest)) = 0) := by
  have hmain := getNextNumber_of_below_max files hmax
  refine ⟨hmain, ?_, ?_, ?_, ?_, getNumberFromADR_no_hyphen, ?_, ?_⟩
  · intro files' hp
    rw [getNextNumber_eq, getNextNumber_eq, maxNumber_perm ((hp.filter _).map _)]
  · intro h
    rw [hmain, h]
    rfl
  · intro h
    rw [hmain]
    have hle : maxNumber ((files.filter fun f => hasSuffix f ".md").map getNumberFromADR)
        ≤ 0 := by
      apply maxNumber_le _ _ (le_refl 0)
      intro n hn
      obtain ⟨f, hf, rfl⟩ := List.mem_map.mp hn
      rw [List.mem_filter] at hf
      rw [h f hf.1 hf.2]
    have := maxNumber_nonneg ((files.filter fun f => hasSuffix f ".md").map getNumberFromADR)
    omega
  · intro f h
    rw [getNumberFromADR, atoi_of_not_decimal _ h]
  · intro ds rest hne hd hv
    rw [getNumberFromADR]
    simp only [splitN2Head_append _ _ hd]
    rw [atoi_digits ds hne hd (by unfold maxInt at hv; omega)]
  · intro ds rest hd hv
    rw [getNumberFromADR]
    simp only [splitN2Head_append _ _ hd]
    rw [atoi_out_of_range ds hd (by unfold maxInt at hv; omega)]

/-- Witness of C2: the listing of `0001-foo.md` and `0003-bar.md` gives 4. -/
theorem getNextNumber_spec_witness :
    (∀ f ∈ ["0001-foo.md", "0003-bar.md"],
        hasSuffix f ".md" = true → getNumberFromADR f ≠ maxInt)
    ∧ getNextNumber ["0001-foo.md", "0003-bar.md"] = 4 :=
  ⟨by decide, (getNextNumber_spec ["0001-foo.md", "0003-bar.md"] (by decide)).1.trans (by decide)⟩

/-- C3, as it stands, fails: a listing may hold the markdown file of record 1
next to a file numbered with the largest `int`; `getNextNumber` then wraps
around and is not greater than 1. -/
theorem getNextNumber_not_greater_counterexample :
    (0 : Int) ≤ (ADR.mk 1 "a" "" "").Number ∧ (ADR.mk 1 "a" "" "").Number < maxInt
    ∧ (getADRFileName ⟨1, "a", "", ""⟩ ++ ".md") ∈ ["0001-a.md", "9223372036854775807-b.md"]
    ∧ ¬ ((ADR.mk 1 "a" "" "").Number
          < getNextNumber ["0001-a.md", "9223372036854775807-b.md"]) := by
  decide

theorem getADRFileName_md (r : ADR) (h : 0 ≤ r.Number) :
    getADRFileName r ++ ".md"
      = String.mk (zeroPad 4 (decimal r.Number.toNat) ++
          '-' :: ((trimNonWord r.Name.data).map slugChar ++ ".md".data)) := by
  apply String.ext
  rw [String.data_append, getADRFileName_data, sprintf04d_of_nonneg h]
  simp

theorem hasSuffix_append (s t : String) : hasSuffix (s ++ t) t = true := by
  unfold hasSuffix
  rw [List.isSuffixOf_iff_suffix, String.data_append]
  exact List.suffix_append _ _

/-- C3, amended: for a record with a non-negative number below the largest `int`,
`getNumberFromADR` reads the number back from the markdown file name, and for
every listing that contains this file name and has no markdown entry numbered
with the largest `int`, `getNextNumber` is strictly greater than the number;
two records with different non-negative numbers have different base file
names. -/
theorem number_read_back_and_fresh (r r' : ADR) (files : List String) (h0 : 0 ≤ r.Number) :
    (r.Number < maxInt → getNumberFromADR (getADRFileName r ++ ".md") = r.Number)
    ∧ (r.Number < maxInt → (getADRFileName r ++ ".md") ∈ files →
        (∀ f ∈ files, hasSuffix f ".md" = true → getNumberFromADR f ≠ maxInt) →
        r.Number < getNextNumber files)
    ∧ (0 ≤ r'.Number → r.Number ≠ r'.Number → getADRFileName r ≠ getADRFileName r') := by
  have hback : r.Number < maxInt → getNumberFromADR (getADRFileName r ++ ".md") = r.Number := by
    intro h1
    rw [getADRFileName_md r h0, getNumberFromADR_of_prefix _ _ (by omega)]
    omega
  refine ⟨hback, ?_, ?_⟩
  · intro h1 hmem hmax
    rw [getNextNumber_of_below_max files hmax]
    have hle : getNumberFromADR (getADRFileName r ++ ".md")
        ≤ maxNumber ((files.filter fun f => hasSuffix f ".md").map getNumberFromADR) := by
      apply le_maxNumber
      apply List.mem_map_of_mem
      rw [List.mem_filter]
      exact ⟨hmem, hasSuffix_append _ _⟩
    rw [hback h1] at hle
    omega
  · intro h0' hne heq
    have h1 := splitN2Head_getADRFileName r h0
    have h2 := splitN2Head_getADRFileName r' h0'
    rw [heq, h2] at h1
    have h3 := congrArg digitsValue h1
    rw [digitsValue_zeroPad, digitsValue_zeroPad, decimal_value, decimal_value] at h3
    omega

/-- Witness of C3 at record 7, "Pick a database". -/
theorem number_read_back_and_fresh_witness :
    (0 : Int) ≤ 7
    ∧ getNumberFromADR (getADRFileName ⟨7, "Pick a database", "", "Proposed"⟩ ++ ".md") = 7
    ∧ 7 < getNextNumber ["0001-first.md", "0007-pick-a-database.md",
          "0007-pick-a-database.yaml", "README.md"]
    ∧ getADRFileName ⟨7, "Pick a database", "", "Proposed"⟩
        ≠ getADRFileName ⟨8, "Pick a database", "", "Proposed"⟩ :=
  ⟨by decide,
    (number_read_back_and_fresh ⟨7, "Pick a database", "", "Proposed"⟩
      ⟨8, "Pick a database", "", "Proposed"⟩
      ["0001-first.md", "0007-pick-a-database.md", "0007-pick-a-database.yaml", "README.md"]
      (by decide)).1 (by decide),
    (number_read_back_and_fresh ⟨7, "Pick a database", "", "Proposed"⟩
      ⟨8, "Pick a database", "", "Proposed"⟩
      ["0001-first.md", "0007-pick-a-database.md", "0007-pick-a-database.yaml", "README.md"]
      (by decide)).2.1 (by decide) (by decide) (by decide),
    (number_read_back_and_fresh ⟨7, "Pick a database", "", "Proposed"⟩
      ⟨8, "Pick a database", "", "Proposed"⟩
      ["0001-first.md", "0007-pick-a-database.md", "0007-pick-a-database.yaml", "README.md"]
      (by decide)).2.2 (by decide) (by decide)⟩

end Radr

namespace Radr

/-- C6: when every entry ending in ".yaml" is readable and decodes to a record, the
sequence bound to the TOC template has exactly one entry per listing entry
ending in ".yaml" and none for the others, in listing order; each entry carries
the number and the name of the decoded record, and as link the file name derived
from that record followed by ".md". -/
theorem tocEntries_spec (readFile : String → Except String String)
    (unmarshal : String → Except String ADR) (record : String → ADR) (files : List String)
    (h : ∀ f ∈ files, hasSuffix f ".yaml" = true →
      ∃ adrYaml, readFile f = Except.ok adrYaml ∧ unmarshal adrYaml = Except.ok (record f)) :
    tocEntries readFile unmarshal files
      = Except.ok ((files.filter fun f => hasSuffix f ".yaml").map fun f =>
          { Number := (record f).Number, Name := (record f).Name,
            Link := getADRFileName (record f) ++ ".md" }) := by
  unfold tocEntries
  rw [tocEntries_loop readFile unmarshal record files h []]
  rfl

/-- Witness of C6: a directory listed as record 2, its markdown file, the index and
a sidecar of record 1 that was renamed by hand. -/
theorem tocEntries_spec_witness :
    (∀ f ∈ ["0002-use-postgres.yaml", "0002-use-postgres.md", "README.md",
          "0001-renamed-by-hand.yaml"],
      hasSuffix f ".yaml" = true →
        ∃ adrYaml, sampleReadFile f = Except.ok adrYaml
          ∧ sampleUnmarshal adrYaml = Except.ok (sampleRecord f))
    ∧ tocEntries sampleReadFile sampleUnmarshal
        ["0002-use-postgres.yaml", "0002-use-postgres.md", "README.md",
          "0001-renamed-by-hand.yaml"]
      = Except.ok [⟨2, "Use Postgres", "0002-use-postgres.md"⟩,
          ⟨1, "Record architecture decisions", "0001-record-architecture-decisions.md"⟩] :=
  have hyp : ∀ f ∈ ["0002-use-postgres.yaml", "0002-use-postgres.md", "README.md",
        "0001-renamed-by-hand.yaml"],
      hasSuffix f ".yaml" = true →
        ∃ adrYaml, sampleReadFile f = Except.ok adrYaml
          ∧ sampleUnmarshal adrYaml = Except.ok (sampleRecord f) := by
    intro f hf hy
    simp only [List.mem_cons, List.mem_singleton, List.not_mem_nil, or_false] at hf
    rcases hf with rfl | rfl | rfl | rfl
    · exact ⟨"number: 2", by decide, by decide⟩
    · exact absurd hy (by decide)
    · exact absurd hy (by decide)
    · exact ⟨"number: 1", by decide, by decide⟩
  ⟨hyp, (tocEntries_spec sampleReadFile sampleUnmarshal sampleRecord _ hyp).trans (by decide)⟩

/-- C7, as it stands, fails: a title of 63 characters is accepted, and so is the
title "ééé" of three characters (six bytes). -/
theorem validate_counterexample :
    (String.mk (List.replicate 63 'a')).length = 63
    ∧ validate (String.mk (List.replicate 63 'a')) = Except.ok ()
    ∧ "ééé".length = 3
    ∧ validate "ééé" = Except.ok () := by
  decide

/-- C7, amended: a title made of ASCII characters is accepted if and only if its
length is strictly between 3 and 64 (4 through 63 characters); otherwise it is
rejected with an error. -/
theorem validate_ascii (input : String) (hascii : ∀ c ∈ input.data, c.toNat < 128) :
    (validate input = Except.ok () ↔ 3 < input.length ∧ input.length < 64)
    ∧ (¬ (3 < input.length ∧ input.length < 64) → ∃ e, validate input = Except.error e) := by
  have hlen := utf8ByteSize_ascii input hascii
  have hiff : validate input = Except.ok () ↔ 3 < input.length ∧ input.length < 64 := by
    rw [validate_ok_iff, hlen]
  refine ⟨hiff, fun hn => ?_⟩
  cases hv : validate input with
  | error e => exact ⟨e, rfl⟩
  | ok u => exact absurd (hiff.mp hv) hn

/-- Witness of C7: an accepted title of 15 characters, and the rejected titles of
3 and of 64 characters. -/
theorem validate_ascii_witness :
    (∀ c ∈ "Pick a database".data, c.toNat < 128)
    ∧ validate "Pick a database" = Except.ok ()
    ∧ (∃ e, validate "abc" = Except.error e)
    ∧ (∃ e, validate (String.mk (List.replicate 64 'a')) = Except.error e) :=
  ⟨by decide,
    (validate_ascii "Pick a database" (by decide)).1.mpr (by decide),
    (validate_ascii "abc" (by decide)).2 (by decide),
    (validate_ascii (String.mk (List.replicate 64 'a')) (by decide)).2 (by decide)⟩

/-- C8 fails on the program: the `new` action looks for the literal path
".adr.yaml" whatever `--config` says.  With `--config custom.yaml`, an existing
"custom.yaml" and no ".adr.yaml" it exits with status 1; with ".adr.yaml"
present and no "custom.yaml" it proceeds; the `init` action does consult the
flag. -/
theorem newActionGate_ignores_config_flag :
    newActionGate (fun path => if path = "custom.yaml" then StatResult.found
        else StatResult.notExist) "custom.yaml" = Gate.exit 1
    ∧ newActionGate (fun path => if path = ".adr.yaml" then StatResult.found
        else StatResult.notExist) "custom.yaml" = Gate.proceed
    ∧ initActionGate (fun path => if path = "custom.yaml" then StatResult.found
        else StatResult.notExist) "custom.yaml" = Gate.exit 1
    ∧ (∀ (stat : String → StatResult) (p q : String),
        newActionGate stat p = newActionGate stat q) := by
  refine ⟨by decide, by decide, by decide, fun _ _ _ => rfl⟩

/-- C10: `readTemplate` returns the built-in default when the location is empty or
the file cannot be read, and the contents of the file when the location is not
empty and the file is readable; it always returns a text, never an error. -/
theorem readTemplate_spec (readFile : String → Option String)
    (templateLocation defaultTemplate : String) :
    ((templateLocation = "" ∨ readFile templateLocation = none) →
      readTemplate readFile templateLocation defaultTemplate = defaultTemplate)
    ∧ (∀ data, templateLocation ≠ "" → readFile templateLocation = some data →
      readTemplate readFile templateLocation defaultTemplate = data) := by
  constructor
  · rintro (h | h)
    · rw [readTemplate, if_pos h]
    · unfold readTemplate
      split
      · rfl
      · rw [h]
  · intro data hne h
    rw [readTemplate, if_neg hne, h]

/-- Witness of C10: an empty location, a missing file and a readable file. -/
theorem readTemplate_spec_witness :
    sampleTemplates "missing.md" = none
    ∧ readTemplate sampleTemplates "" "# default" = "# default"
    ∧ readTemplate sampleTemplates "missing.md" "# default" = "# default"
    ∧ readTemplate sampleTemplates "docs/template.md" "# default" = "# custom template" :=
  ⟨by decide,
    (readTemplate_spec sampleTemplates "" "# default").1 (Or.inl rfl),
    (readTemplate_spec sampleTemplates "missing.md" "# default").1 (Or.inr (by decide)),
    (readTemplate_spec sampleTemplates "docs/template.md" "# default").2 _
      (by decide) (by decide)⟩

end Radr
